import Mathlib

/-!
# Verification of the `geohash` library (`src/lib.rs`)

A shallow embedding of the geohash codec.  Rust `f64` coordinates are
modelled as exact rationals: every bound produced by the bisection loops
is a dyadic rational of small height, so IEEE-754 double arithmetic on
the bounds is exact and agrees with `ℚ` arithmetic, and the comparisons
`c.x > mid` coincide with the rational order.  Rust panics (the
`unwrap()` in `decode_bbox` and a hypothetical out-of-bounds index into
`BASE32_CODES`) are modelled by the `GHResult.panicked` value; a Rust
`Result::Err` would be modelled by `GHResult.err`, which the code never
produces since its functions return bare values, not `Result`.
-/

/-- `geo_types::Coordinate<f64>`: `x` is longitude, `y` is latitude. -/
structure Coordinate where
  x : ℚ
  y : ℚ
deriving DecidableEq, Repr

/-- The four running bounds carried by every bisection loop in `lib.rs`. -/
structure BBoxState where
  minLon : ℚ
  maxLon : ℚ
  minLat : ℚ
  maxLat : ℚ
deriving DecidableEq, Repr

/-- The single error condition described by the spec (an invalid symbol). -/
inductive GHError where
  | invalidSymbol : GHError
deriving DecidableEq, Repr

/-- Result of running a Rust function that may panic.  `ok` is a normal
return; `panicked` models a Rust panic (e.g. `Option::unwrap` on `None`
or an out-of-range slice index); `err` would model a recoverable
`Result::Err` value, which none of the embedded functions produce. -/
inductive GHResult (α : Type) where
  | ok : α → GHResult α
  | err : GHError → GHResult α
  | panicked : GHResult α
deriving DecidableEq, Repr

/-- `BASE32_CODES` from `lib.rs` lines 7-9. -/
def BASE32_CODES : List Char :=
  ['0', '1', '2', '3', '4', '5', '6', '7', '8', '9', 'b',
   'c', 'd', 'e', 'f', 'g', 'h', 'j', 'k', 'm', 'n', 'p',
   'q', 'r', 's', 't', 'u', 'v', 'w', 'x', 'y', 'z']

/-- The `Direction` enum from `lib.rs`. -/
inductive Direction where
  | N | Ne | E | Se | S | Sw | W | Nw
deriving DecidableEq, Repr

/-- `Direction::to_tuple` from `lib.rs` lines 43-54: the pair is
`(dlat, dlng)`, matched in that order by `neighbor`. -/
def Direction.to_tuple (d : Direction) : Int × Int :=
  match d with
  | .Sw => (-1, -1)
  | .S => (-1, 0)
  | .Se => (-1, 1)
  | .W => (0, -1)
  | .E => (0, 1)
  | .Nw => (1, -1)
  | .N => (1, 0)
  | .Ne => (1, 1)

/-- The `Neighbors` struct from `lib.rs` lines 11-20. -/
structure Neighbors where
  sw : List Char
  s : List Char
  se : List Char
  w : List Char
  e : List Char
  nw : List Char
  n : List Char
  ne : List Char
deriving DecidableEq, Repr

/-- Initial bounds shared by `encode`, `encode_long` and `decode_bbox`:
`max_lat = 90`, `min_lat = -90`, `max_lon = 180`, `min_lon = -180`. -/
def initState : BBoxState :=
  { minLon := -180, maxLon := 180, minLat := -90, maxLat := 90 }

/-- One iteration of the bisection loop body shared verbatim by `encode`
(lines 128-146) and `encode_long` (lines 67-85): on an even `bits_total`
bisect longitude, on an odd one latitude; the produced bit is `1`
exactly when the coordinate is strictly greater than the midpoint. -/
def encodeStep (c : Coordinate) (bitsTotal : Nat) (s : BBoxState) : Bool × BBoxState :=
  if bitsTotal % 2 == 0 then
    let mid := (s.maxLon + s.minLon) / 2
    if c.x > mid then (true, { s with minLon := mid })
    else (false, { s with maxLon := mid })
  else
    let mid := (s.maxLat + s.minLat) / 2
    if c.y > mid then (true, { s with minLat := mid })
    else (false, { s with maxLat := mid })

/-- The loop of `encode_long` (lines 66-88): `n` iterations remain,
`bt` is `bits_total`, `hv` is the `u64` accumulator (kept `< 2 ^ 64` by
reducing after the wrapping shift `hash_value << 1`). -/
def encodeLongGo (c : Coordinate) : Nat → Nat → Nat → BBoxState → Nat
  | 0, _, hv, _ => hv
  | n + 1, bt, hv, s =>
    let p := encodeStep c bt s
    encodeLongGo c n (bt + 1) (2 * hv % 2 ^ 64 + (if p.1 then 1 else 0)) p.2

/-- `encode_long` from `lib.rs` lines 57-90. -/
def encode_long (c : Coordinate) (bits : Nat) : Nat :=
  encodeLongGo c bits 0 0 initState

/-- The loop of `encode` (lines 127-157): `n` iterations remain, `bt` is
`bits_total`, `bits` counts the bits accumulated in `hv` for the current
character.  On the fifth bit the character `BASE32_CODES[hash_value]` is
pushed; indexing out of range would panic, which `List.get?` + the
catch-all arm model. -/
def encodeCore (c : Coordinate) : Nat → Nat → Nat → Nat → BBoxState → GHResult (List Char)
  | 0, _, _, _, _ => .ok []
  | n + 1, bt, bits, hv, s =>
    let p := encodeStep c bt s
    let hv2 := 2 * hv + (if p.1 then 1 else 0)
    if bits + 1 == 5 then
      match BASE32_CODES.get? hv2, encodeCore c n (bt + 1) 0 0 p.2 with
      | some ch, .ok out => .ok (ch :: out)
      | _, _ => .panicked
    else
      encodeCore c n (bt + 1) (bits + 1) hv2 p.2

/-- `encode` from `lib.rs` lines 115-159.  The `while out.len() < len`
loop pushes exactly one character every 5 iterations, so it runs exactly
`5 * len` times. -/
def encode (c : Coordinate) (len : Nat) : GHResult (List Char) :=
  encodeCore c (5 * len) 0 0 0 initState

/-- `BASE32_CODES.iter().position(|n| *n == c)` from `lib.rs` line 182. -/
def lookupSymbol (c : Char) : Option Nat :=
  List.findIdx? (fun n => n == c) BASE32_CODES

/-- The per-character lookups of `decode_bbox`; the `.unwrap()` panic on
a missing symbol is modelled by `none`. -/
def hashValues : List Char → Option (List Nat)
  | [] => some []
  | c :: rest =>
    match lookupSymbol c, hashValues rest with
    | some v, some vs => some (v :: vs)
    | _, _ => none

/-- The five bits `(hash_value >> (4 - bs)) & 1` for `bs` in `0..5`
(`lib.rs` lines 184-185), most significant first. -/
def bits5 (v : Nat) : List Bool :=
  (List.range 5).map (fun bs => v >>> (4 - bs) &&& 1 == 1)

/-- The body of the inner loop of `decode_bbox` (lines 186-202): narrow
the active axis towards the half selected by the bit. -/
def decodeStep (isLon : Bool) (bit : Bool) (s : BBoxState) : BBoxState :=
  if isLon then
    let mid := (s.maxLon + s.minLon) / 2
    if bit then { s with minLon := mid } else { s with maxLon := mid }
  else
    let mid := (s.maxLat + s.minLat) / 2
    if bit then { s with minLat := mid } else { s with maxLat := mid }

/-- The bit loop of `decode_bbox`, threading the `is_lon` toggle. -/
def decodeGo : List Bool → Bool → BBoxState → BBoxState
  | [], _, s => s
  | b :: bs, isLon, s => decodeGo bs (!isLon) (decodeStep isLon b s)

/-- `decode_bbox` from `lib.rs` lines 172-215: per character, look up
its 5-bit value (panicking on an unknown symbol) and fold the five bits,
most significant first, into the bounds; return `(min, max)` corners. -/
def decode_bbox (h : List Char) : GHResult (Coordinate × Coordinate) :=
  match hashValues h with
  | none => .panicked
  | some vs =>
    let s := decodeGo (vs.map bits5).flatten true initState
    .ok (⟨s.minLon, s.minLat⟩, ⟨s.maxLon, s.maxLat⟩)

/-- `decode` from `lib.rs` lines 261-269: midpoint plus
`(<coordinate>, <longitude error>, <latitude error>)`. -/
def decode (h : List Char) : GHResult (Coordinate × ℚ × ℚ) :=
  match decode_bbox h with
  | .ok (c0, c1) =>
    .ok (⟨(c0.x + c1.x) / 2, (c0.y + c1.y) / 2⟩, (c1.x - c0.x) / 2, (c1.y - c0.y) / 2)
  | .err e => .err e
  | .panicked => .panicked

/-- `neighbor` from `lib.rs` lines 271-282: decode, nudge the center by
twice the absolute error in the direction `(dlat, dlng)`, re-encode at
the input's length. -/
def neighbor (h : List Char) (d : Direction) : GHResult (List Char) :=
  match decode h with
  | .ok (coord, lonErr, latErr) =>
    encode ⟨coord.x + 2 * |lonErr| * ((d.to_tuple).2 : ℚ),
            coord.y + 2 * |latErr| * ((d.to_tuple).1 : ℚ)⟩ h.length
  | .err e => .err e
  | .panicked => .panicked

/-- `neighbors` from `lib.rs` lines 307-318: the eight single-direction
calls, a panic in any of them propagating. -/
def neighbors (h : List Char) : GHResult Neighbors :=
  match neighbor h .Sw, neighbor h .S, neighbor h .Se, neighbor h .W,
        neighbor h .E, neighbor h .Nw, neighbor h .N, neighbor h .Ne with
  | .ok sw, .ok s, .ok se, .ok w, .ok e, .ok nw, .ok n, .ok ne =>
    .ok ⟨sw, s, se, w, e, nw, n, ne⟩
  | _, _, _, _, _, _, _, _ => .panicked

/-- A hash string all of whose characters are in the 32-symbol alphabet. -/
def ValidHash (h : List Char) : Prop :=
  ∀ c ∈ h, c ∈ BASE32_CODES

instance : DecidablePred ValidHash := fun h =>
  List.decidableBAll (· ∈ BASE32_CODES) h

/-- Proof device: the raw bit stream and final bounds produced by `n`
iterations of the shared bisection step, starting at `bits_total = bt`. -/
def encodeSteps (c : Coordinate) : Nat → Nat → BBoxState → List Bool × BBoxState
  | 0, _, s => ([], s)
  | n + 1, bt, s =>
    let p := encodeStep c bt s
    let q := encodeSteps c n (bt + 1) p.2
    (p.1 :: q.1, q.2)

/-- Accumulate bits into a natural number, most significant first,
starting from seed `a`. -/
def bitsFold (a : Nat) (g : List Bool) : Nat :=
  g.foldl (fun acc b => 2 * acc + (if b then 1 else 0)) a

/-- The value of a bit string, most significant bit first. -/
def bitsVal (g : List Bool) : Nat :=
  bitsFold 0 g

/-- Proof device mirroring `encode`'s inner accumulator: pack a bit
stream into base-32 characters, `bits` bits (of value `hv`) already
accumulated towards the next character. -/
def packChars : Nat → Nat → List Bool → List Char
  | _, _, [] => []
  | bits, hv, b :: bs =>
    let hv2 := 2 * hv + (if b then 1 else 0)
    if bits + 1 == 5 then BASE32_CODES.getD hv2 default :: packChars 0 0 bs
    else packChars (bits + 1) hv2 bs

/-- The bit sequence recoverable from a hash string via the alphabet's
inverse mapping: each character becomes its 5-bit value, most
significant bit first, and the groups are concatenated. -/
def hashBits (s : List Char) : List Bool :=
  (s.map (fun ch => bits5 ((lookupSymbol ch).getD 0))).flatten

/-- The state of `decode_bbox`'s `is_lon` toggle after consuming a list
of bits. -/
def afterParity : List Bool → Bool → Bool
  | [], p => p
  | _ :: t, p => afterParity t (!p)

/-- Split a bit stream into consecutive groups of five. -/
def chunk5 : List Bool → List (List Bool)
  | b0 :: b1 :: b2 :: b3 :: b4 :: t => [b0, b1, b2, b3, b4] :: chunk5 t
  | _ => []

/-- Spec-side step, following §4.2 of the spec: compute the midpoint of
the active axis's current bounds; if the coordinate's value on that axis
is strictly greater than the midpoint, emit bit 1 and replace the lower
bound with the midpoint, else emit bit 0 and replace the upper bound
with the midpoint.  Longitude is the active axis on even 0-based bit
indices, latitude on odd. -/
def specStep (c : Coordinate) (i : Nat) (s : BBoxState) : Bool × BBoxState :=
  if i % 2 == 0 then
    let mid := (s.maxLon + s.minLon) / 2
    if c.x > mid then (true, { s with minLon := mid })
    else (false, { s with maxLon := mid })
  else
    let mid := (s.maxLat + s.minLat) / 2
    if c.y > mid then (true, { s with minLat := mid })
    else (false, { s with maxLat := mid })

/-- Spec-side bit production from bit index `i` onwards. -/
def specBitsGo (c : Coordinate) (i : Nat) (s : BBoxState) : Nat → List Bool
  | 0 => []
  | n + 1 =>
    let p := specStep c i s
    p.1 :: specBitsGo c (i + 1) p.2 n

/-- The first `n` bits of the spec's bisection of a coordinate. -/
def specBits (c : Coordinate) (n : Nat) : List Bool :=
  specBitsGo c 0 initState n

/-- Spec-side encoder, following §4.2: produce `5 * len` bits by
repeated bisection and map each group of 5 accumulated bits through the
alphabet table to one output character. -/
def specEncode (c : Coordinate) (len : Nat) : List Char :=
  (chunk5 (specBits c (5 * len))).map (fun g => BASE32_CODES.getD (bitsVal g) default)

/-! ## Alphabet facts -/

theorem base32_length : BASE32_CODES.length = 32 := by decide

theorem lookup_isSome_of_mem : ∀ c ∈ BASE32_CODES, (lookupSymbol c).isSome := by decide

theorem lookup_getD_lt : ∀ c ∈ BASE32_CODES, (lookupSymbol c).getD 0 < 32 := by decide

theorem getD_lookup_of_mem :
    ∀ c ∈ BASE32_CODES, BASE32_CODES.getD ((lookupSymbol c).getD 0) default = c := by decide

theorem lookup_getD_of_lt : ∀ v < 32, lookupSymbol (BASE32_CODES.getD v default) = some v := by
  decide

theorem get?_eq_getD_of_lt :
    ∀ v < 32, BASE32_CODES.get? v = some (BASE32_CODES.getD v default) := by decide

theorem getD_mem_of_lt : ∀ v < 32, BASE32_CODES.getD v default ∈ BASE32_CODES := by decide

theorem mem_of_lookup_isSome (c : Char) (hs : (lookupSymbol c).isSome) : c ∈ BASE32_CODES := by
  by_contra hc
  have hnone : lookupSymbol c = none := by
    apply List.findIdx?_eq_none_iff.mpr
    intro x hx
    simp only [beq_eq_false_iff_ne, ne_eq]
    intro hxc
    exact hc (hxc ▸ hx)
  rw [hnone] at hs
  simp at hs

theorem lookup_eq_some_of_mem (c : Char) (hc : c ∈ BASE32_CODES) :
    lookupSymbol c = some ((lookupSymbol c).getD 0) := by
  have h := lookup_isSome_of_mem c hc
  cases hl : lookupSymbol c with
  | none => rw [hl] at h; simp at h
  | some v => simp [Option.getD]

/-! ## `hashValues` -/

theorem hashValues_of_valid (h : List Char) (hv : ValidHash h) :
    hashValues h = some (h.map (fun c => (lookupSymbol c).getD 0)) := by
  induction h with
  | nil => rfl
  | cons c t ih =>
    have hc : c ∈ BASE32_CODES := hv c (by simp)
    have ht : ValidHash t := fun x hx => hv x (by simp [hx])
    obtain ⟨v, hl⟩ : ∃ v, lookupSymbol c = some v := by
      cases hl : lookupSymbol c with
      | none => exact absurd (lookup_isSome_of_mem c hc) (by simp [hl])
      | some v => exact ⟨v, rfl⟩
    simp only [hashValues, ih ht, hl, List.map_cons, Option.getD_some]

theorem hashValues_of_invalid (h : List Char) (hv : ¬ ValidHash h) : hashValues h = none := by
  induction h with
  | nil => exact absurd (fun c hc => absurd hc (List.not_mem_nil c)) hv
  | cons c t ih =>
    by_cases hc : c ∈ BASE32_CODES
    · have ht : ¬ ValidHash t := by
        intro hvt
        apply hv
        intro x hx
        rcases List.mem_cons.mp hx with hxe | hxt
        · exact hxe ▸ hc
        · exact hvt x hxt
      simp only [hashValues, ih ht]
      cases lookupSymbol c <;> rfl
    · have hl : lookupSymbol c = none := by
        cases hl : lookupSymbol c with
        | none => rfl
        | some v => exact absurd (mem_of_lookup_isSome c (by simp [hl])) hc
      simp only [hashValues, hl]

/-! ## Bit-level facts -/

theorem bits5_explicit (v : Nat) :
    bits5 v = [v >>> 4 &&& 1 == 1, v >>> 3 &&& 1 == 1, v >>> 2 &&& 1 == 1,
               v >>> 1 &&& 1 == 1, v >>> 0 &&& 1 == 1] := rfl

theorem bits5_length (v : Nat) : (bits5 v).length = 5 := rfl

theorem bits5_bitsVal (b0 b1 b2 b3 b4 : Bool) :
    bits5 (bitsVal [b0, b1, b2, b3, b4]) = [b0, b1, b2, b3, b4] ∧
      bitsVal [b0, b1, b2, b3, b4] < 32 := by
  revert b0 b1 b2 b3 b4; decide

theorem bitsVal_bits5 (v : Nat) (hv : v < 32) : bitsVal (bits5 v) = v := by
  revert v hv; decide

/-! ## `encode` as bit production plus packing -/

theorem encodeSteps_length (c : Coordinate) :
    ∀ n bt s, (encodeSteps c n bt s).1.length = n := by
  intro n
  induction n with
  | zero => intro bt s; rfl
  | succ m ih => intro bt s; simp [encodeSteps, ih]

theorem encodeCore_eq_pack (c : Coordinate) :
    ∀ n bt bits hv s, bits < 5 → hv < 2 ^ bits →
      encodeCore c n bt bits hv s = .ok (packChars bits hv (encodeSteps c n bt s).1) := by
  intro n
  induction n with
  | zero => intro bt bits hv s _ _; rfl
  | succ m ih =>
    intro bt bits hv s hbits hhv
    simp only [encodeCore, encodeSteps, packChars]
    by_cases h5 : bits + 1 = 5
    · have hb4 : bits = 4 := by omega
      have hv2lt : 2 * hv + (if (encodeStep c bt s).1 then 1 else 0) < 32 := by
        have : hv < 16 := by rw [hb4] at hhv; exact hhv
        split <;> omega
      simp only [h5, beq_self_eq_true, if_true,
        get?_eq_getD_of_lt _ hv2lt, ih (bt + 1) 0 0 _ (by omega) (by omega)]
    · have h5' : (bits + 1 == 5) = false := by
        simp only [beq_eq_false_iff_ne, ne_eq]
        omega
      have hp : 2 ^ (bits + 1) = 2 * 2 ^ bits := by ring
      have hite : (if (encodeStep c bt s).1 then 1 else 0) ≤ 1 := by split <;> omega
      have hv2lt : 2 * hv + (if (encodeStep c bt s).1 then 1 else 0) < 2 ^ (bits + 1) := by
        omega
      simp only [h5', Bool.false_eq_true, if_false,
        ih (bt + 1) (bits + 1) _ _ (by omega) hv2lt]

theorem encode_eq_pack (c : Coordinate) (len : Nat) :
    encode c len = .ok (packChars 0 0 (encodeSteps c (5 * len) 0 initState).1) :=
  encodeCore_eq_pack c (5 * len) 0 0 0 initState (by omega) (by omega)

theorem packChars_length :
    ∀ bs bits hv, bits < 5 → (packChars bits hv bs).length = (bits + bs.length) / 5 := by
  intro bs
  induction bs with
  | nil => intro bits hv hb; simp [packChars]; omega
  | cons b t ih =>
    intro bits hv hb
    simp only [packChars]
    by_cases h5 : bits + 1 = 5
    · simp only [h5, beq_self_eq_true, if_true, List.length_cons, ih 0 0 (by omega)]
      omega
    · have h5' : (bits + 1 == 5) = false := by
        simp only [beq_eq_false_iff_ne, ne_eq]
        omega
      simp only [h5', Bool.false_eq_true, if_false, ih (bits + 1) _ (by omega),
        List.length_cons]
      omega

theorem packChars_mem :
    ∀ bs bits hv, bits < 5 → hv < 2 ^ bits →
      ∀ ch ∈ packChars bits hv bs, ch ∈ BASE32_CODES := by
  intro bs
  induction bs with
  | nil => intro bits hv _ _ ch hch; simp [packChars] at hch
  | cons b t ih =>
    intro bits hv hb hhv ch hch
    simp only [packChars] at hch
    by_cases h5 : bits + 1 = 5
    · have hb4 : bits = 4 := by omega
      have hv2lt : 2 * hv + (if b then 1 else 0) < 32 := by
        have : hv < 16 := by rw [hb4] at hhv; exact hhv
        split <;> omega
      rw [if_pos (by simp [h5])] at hch
      rcases List.mem_cons.mp hch with hche | hcht
      · exact hche ▸ getD_mem_of_lt _ hv2lt
      · exact ih 0 0 (by omega) (by omega) ch hcht
    · have hp : 2 ^ (bits + 1) = 2 * 2 ^ bits := by ring
      have hite : (if b then 1 else 0) ≤ 1 := by split <;> omega
      have hv2lt : 2 * hv + (if b then 1 else 0) < 2 ^ (bits + 1) := by omega
      rw [if_neg (by simp only [beq_iff_eq]; omega)] at hch
      exact ih (bits + 1) _ (by omega) hv2lt ch hch

theorem encode_ok (c : Coordinate) (len : Nat) :
    ∃ out, encode c len = .ok out ∧ out.length = len ∧ ∀ ch ∈ out, ch ∈ BASE32_CODES := by
  refine ⟨_, encode_eq_pack c len, ?_, ?_⟩
  · rw [packChars_length _ 0 0 (by omega), encodeSteps_length]
    omega
  · exact packChars_mem _ 0 0 (by omega) (by omega)

theorem packChars_quintuple (b0 b1 b2 b3 b4 : Bool) (t : List Bool) :
    packChars 0 0 (b0 :: b1 :: b2 :: b3 :: b4 :: t) =
      BASE32_CODES.getD (bitsVal [b0, b1, b2, b3, b4]) default :: packChars 0 0 t := by
  simp [packChars, bitsVal, bitsFold]

theorem hashBits_cons (c : Char) (t : List Char) :
    hashBits (c :: t) = bits5 ((lookupSymbol c).getD 0) ++ hashBits t := by
  simp [hashBits]

theorem hashBits_length (h : List Char) : (hashBits h).length = 5 * h.length := by
  induction h with
  | nil => rfl
  | cons c t ih =>
    rw [hashBits_cons, List.length_append, bits5_length, ih, List.length_cons]
    omega

theorem pack_hashBits (h : List Char) (hv : ValidHash h) :
    packChars 0 0 (hashBits h) = h := by
  induction h with
  | nil => rfl
  | cons c t ih =>
    have hc : c ∈ BASE32_CODES := hv c (by simp)
    have ht : ValidHash t := fun x hx => hv x (by simp [hx])
    rw [hashBits_cons, bits5_explicit, List.cons_append, List.cons_append,
      List.cons_append, List.cons_append, List.cons_append, List.nil_append,
      packChars_quintuple, ← bits5_explicit, bitsVal_bits5 _ (lookup_getD_lt c hc),
      getD_lookup_of_mem c hc, ih ht]

theorem hashBits_pack : ∀ n (bs : List Bool), bs.length = 5 * n →
    hashBits (packChars 0 0 bs) = bs := by
  intro n
  induction n with
  | zero =>
    intro bs hlen
    have : bs = [] := List.eq_nil_of_length_eq_zero (by omega)
    subst this
    rfl
  | succ m ih =>
    intro bs hlen
    match bs with
    | [] => simp at hlen
    | [_] => simp at hlen; omega
    | [_, _] => simp at hlen; omega
    | [_, _, _] => simp at hlen; omega
    | [_, _, _, _] => simp at hlen; omega
    | b0 :: b1 :: b2 :: b3 :: b4 :: t =>
      have hlt : bitsVal [b0, b1, b2, b3, b4] < 32 := (bits5_bitsVal b0 b1 b2 b3 b4).2
      have hbits : bits5 (bitsVal [b0, b1, b2, b3, b4]) = [b0, b1, b2, b3, b4] :=
        (bits5_bitsVal b0 b1 b2 b3 b4).1
      rw [packChars_quintuple, hashBits_cons, lookup_getD_of_lt _ hlt, Option.getD_some,
        hbits, ih t (by simp at hlen; omega)]
      rfl

/-! ## `encode_long` as bit accumulation modulo `2 ^ 64` -/

theorem bitsFold_cons (a : Nat) (b : Bool) (bs : List Bool) :
    bitsFold a (b :: bs) = bitsFold (2 * a + (if b then 1 else 0)) bs := by
  simp [bitsFold]

theorem wrap_shift_add (hv : Nat) (b : Nat) (hb : b ≤ 1) :
    2 * hv % 2 ^ 64 + b = (2 * hv + b) % 2 ^ 64 := by
  have h1 : 2 * hv % 2 ^ 64 = 2 * (hv % 2 ^ 63) := by
    have : (2 : ℕ) ^ 64 = 2 * 2 ^ 63 := by ring
    rw [this, Nat.mul_mod_mul_left]
  have h2 : hv % 2 ^ 63 < 2 ^ 63 := Nat.mod_lt _ (by positivity)
  have h4 : 2 ^ 63 * (hv / 2 ^ 63) + hv % 2 ^ 63 = hv := Nat.div_add_mod hv (2 ^ 63)
  set r := hv % 2 ^ 63 with hr
  set q := hv / 2 ^ 63 with hq
  have h3 : 2 * hv + b = 2 ^ 64 * q + (2 * r + b) := by
    rw [← h4]; ring
  rw [h1, h3, Nat.mul_add_mod, Nat.mod_eq_of_lt (by omega)]

theorem bitsFold_modeq (bs : List Bool) :
    ∀ a1 a2 : Nat, a1 ≡ a2 [MOD 2 ^ 64] → bitsFold a1 bs ≡ bitsFold a2 bs [MOD 2 ^ 64] := by
  induction bs with
  | nil => intro a1 a2 hm; exact hm
  | cons b t ih =>
    intro a1 a2 hm
    rw [bitsFold_cons, bitsFold_cons]
    exact ih _ _ (Nat.ModEq.add_right _ (hm.mul_left 2))

theorem encodeLongGo_eq (c : Coordinate) :
    ∀ n bt hv s, hv < 2 ^ 64 →
      encodeLongGo c n bt hv s = bitsFold hv (encodeSteps c n bt s).1 % 2 ^ 64 := by
  intro n
  induction n with
  | zero =>
    intro bt hv s hhv
    simp only [encodeLongGo, encodeSteps, bitsFold, List.foldl_nil]
    omega
  | succ m ih =>
    intro bt hv s hhv
    simp only [encodeLongGo, encodeSteps]
    have hb : (if (encodeStep c bt s).1 then 1 else 0) ≤ 1 := by split <;> omega
    rw [ih _ _ _ (by have := Nat.mod_lt (2 * hv) (show 0 < 2 ^ 64 by positivity); omega),
      bitsFold_cons, wrap_shift_add _ _ hb]
    exact bitsFold_modeq _ _ _ (Nat.mod_modEq _ _)

theorem bitsFold_lt : ∀ (bs : List Bool) (a : Nat), bitsFold a bs < (a + 1) * 2 ^ bs.length := by
  intro bs
  induction bs with
  | nil => intro a; simp [bitsFold]
  | cons b t ih =>
    intro a
    rw [bitsFold_cons]
    have h1 := ih (2 * a + (if b then 1 else 0))
    have h2 : (2 * a + (if b then 1 else 0) + 1) * 2 ^ t.length ≤ (a + 1) * 2 ^ (t.length + 1) := by
      have hb : (if b then 1 else 0) ≤ 1 := by split <;> omega
      have hp : (2 : ℕ) ^ (t.length + 1) = 2 * 2 ^ t.length := by ring
      calc (2 * a + (if b then 1 else 0) + 1) * 2 ^ t.length
          ≤ (2 * a + 2) * 2 ^ t.length := by
            exact Nat.mul_le_mul_right _ (by omega)
        _ = (a + 1) * 2 ^ (t.length + 1) := by rw [hp]; ring
    simp only [List.length_cons]
    omega

theorem bitsVal_lt (bs : List Bool) : bitsVal bs < 2 ^ bs.length := by
  have := bitsFold_lt bs 0
  simpa [bitsVal] using this

theorem encode_long_eq (c : Coordinate) (n : Nat) :
    encode_long c n = bitsVal (encodeSteps c n 0 initState).1 % 2 ^ 64 :=
  encodeLongGo_eq c n 0 0 initState (by positivity)

/-! ## The decode path -/

theorem decodeGo_append (xs ys : List Bool) :
    ∀ p s, decodeGo (xs ++ ys) p s = decodeGo ys (afterParity xs p) (decodeGo xs p s) := by
  induction xs with
  | nil => intro p s; rfl
  | cons b t ih => intro p s; exact ih (!p) (decodeStep p b s)

theorem decodeStep_nested (isLon bit : Bool) (s : BBoxState)
    (hlon : s.minLon < s.maxLon) (hlat : s.minLat < s.maxLat) :
    s.minLon ≤ (decodeStep isLon bit s).minLon ∧ (decodeStep isLon bit s).maxLon ≤ s.maxLon ∧
      (decodeStep isLon bit s).minLon < (decodeStep isLon bit s).maxLon ∧
      s.minLat ≤ (decodeStep isLon bit s).minLat ∧ (decodeStep isLon bit s).maxLat ≤ s.maxLat ∧
      (decodeStep isLon bit s).minLat < (decodeStep isLon bit s).maxLat := by
  refine ⟨?_, ?_, ?_, ?_, ?_, ?_⟩ <;> cases isLon <;> cases bit <;>
    simp [decodeStep] <;> linarith

theorem decodeGo_nested : ∀ (bs : List Bool) (p : Bool) (s : BBoxState),
    s.minLon < s.maxLon → s.minLat < s.maxLat →
    s.minLon ≤ (decodeGo bs p s).minLon ∧ (decodeGo bs p s).maxLon ≤ s.maxLon ∧
      (decodeGo bs p s).minLon < (decodeGo bs p s).maxLon ∧
      s.minLat ≤ (decodeGo bs p s).minLat ∧ (decodeGo bs p s).maxLat ≤ s.maxLat ∧
      (decodeGo bs p s).minLat < (decodeGo bs p s).maxLat := by
  intro bs
  induction bs with
  | nil => intro p s hlon hlat; exact ⟨le_refl _, le_refl _, hlon, le_refl _, le_refl _, hlat⟩
  | cons b t ih =>
    intro p s hlon hlat
    have hstep := decodeStep_nested p b s hlon hlat
    have hrest := ih (!p) (decodeStep p b s) hstep.2.2.1 hstep.2.2.2.2.2
    simp only [decodeGo]
    exact ⟨le_trans hstep.1 hrest.1, le_trans hrest.2.1 hstep.2.1, hrest.2.2.1,
      le_trans hstep.2.2.2.1 hrest.2.2.2.1, le_trans hrest.2.2.2.2.1 hstep.2.2.2.2.1,
      hrest.2.2.2.2.2⟩

theorem parity_succ (bt : Nat) : ((bt + 1) % 2 == 0) = !(bt % 2 == 0) := by
  rcases Nat.mod_two_eq_zero_or_one bt with h | h
  · have h1 : (bt + 1) % 2 = 1 := by omega
    simp [h, h1]
  · have h1 : (bt + 1) % 2 = 0 := by omega
    simp [h, h1]

theorem decode_encode_step (c : Coordinate) (bt : Nat) (s : BBoxState) :
    decodeStep (bt % 2 == 0) (encodeStep c bt s).1 s = (encodeStep c bt s).2 := by
  cases hbt : (bt % 2 == 0 : Bool)
  · by_cases hc : (s.maxLat + s.minLat) / 2 < c.y <;>
      simp [encodeStep, decodeStep, hbt, hc]
  · by_cases hc : (s.maxLon + s.minLon) / 2 < c.x <;>
      simp [encodeStep, decodeStep, hbt, hc]

theorem encode_decode_agree (c : Coordinate) :
    ∀ n bt s, decodeGo (encodeSteps c n bt s).1 (bt % 2 == 0) s = (encodeSteps c n bt s).2 := by
  intro n
  induction n with
  | zero => intro bt s; rfl
  | succ m ih =>
    intro bt s
    simp only [encodeSteps, decodeGo]
    rw [← parity_succ, decode_encode_step]
    exact ih (bt + 1) (encodeStep c bt s).2

theorem encodeStep_matches (q : Coordinate) (bt : Nat) (s : BBoxState) (b : Bool)
    (h1 : (decodeStep (bt % 2 == 0) b s).minLon < q.x)
    (h2 : q.x ≤ (decodeStep (bt % 2 == 0) b s).maxLon)
    (h3 : (decodeStep (bt % 2 == 0) b s).minLat < q.y)
    (h4 : q.y ≤ (decodeStep (bt % 2 == 0) b s).maxLat) :
    encodeStep q bt s = (b, decodeStep (bt % 2 == 0) b s) := by
  cases hbt : (bt % 2 == 0 : Bool) <;> rw [hbt] at h1 h2 h3 h4 <;> cases b <;>
    simp [decodeStep] at h1 h2 h3 h4 <;>
    simp [encodeStep, decodeStep, hbt] <;>
    first
      | exact h4
      | exact h2
      | exact h3
      | exact h1

theorem encode_follows (q : Coordinate) :
    ∀ (bs : List Bool) (bt : Nat) (s : BBoxState),
      s.minLon < s.maxLon → s.minLat < s.maxLat →
      (decodeGo bs (bt % 2 == 0) s).minLon < q.x →
      q.x ≤ (decodeGo bs (bt % 2 == 0) s).maxLon →
      (decodeGo bs (bt % 2 == 0) s).minLat < q.y →
      q.y ≤ (decodeGo bs (bt % 2 == 0) s).maxLat →
      encodeSteps q bs.length bt s = (bs, decodeGo bs (bt % 2 == 0) s) := by
  intro bs
  induction bs with
  | nil => intro bt s _ _ _ _ _ _; rfl
  | cons b t ih =>
    intro bt s hlon hlat hx1 hx2 hy1 hy2
    simp only [decodeGo] at hx1 hx2 hy1 hy2 ⊢
    rw [← parity_succ] at hx1 hx2 hy1 hy2
    have hstep := decodeStep_nested (bt % 2 == 0) b s hlon hlat
    have hnest := decodeGo_nested t ((bt + 1) % 2 == 0) (decodeStep (bt % 2 == 0) b s)
      hstep.2.2.1 hstep.2.2.2.2.2
    rw [parity_succ] at hnest
    have hsx1 : (decodeStep (bt % 2 == 0) b s).minLon < q.x := by
      rw [← parity_succ] at hnest
      exact lt_of_le_of_lt hnest.1 hx1
    have hsx2 : q.x ≤ (decodeStep (bt % 2 == 0) b s).maxLon := by
      rw [← parity_succ] at hnest
      exact le_trans hx2 hnest.2.1
    have hsy1 : (decodeStep (bt % 2 == 0) b s).minLat < q.y := by
      rw [← parity_succ] at hnest
      exact lt_of_le_of_lt hnest.2.2.2.1 hy1
    have hsy2 : q.y ≤ (decodeStep (bt % 2 == 0) b s).maxLat := by
      rw [← parity_succ] at hnest
      exact le_trans hy2 hnest.2.2.2.2.1
    have hmatch := encodeStep_matches q bt s b hsx1 hsx2 hsy1 hsy2
    have hih := ih (bt + 1) (decodeStep (bt % 2 == 0) b s)
      hstep.2.2.1 hstep.2.2.2.2.2 hx1 hx2 hy1 hy2
    simp only [List.length_cons, encodeSteps, hmatch, hih, ← parity_succ]

theorem encodeStep_inrange (q : Coordinate) (bt : Nat) (s : BBoxState)
    (hx1 : s.minLon ≤ q.x) (hx2 : q.x ≤ s.maxLon)
    (hy1 : s.minLat ≤ q.y) (hy2 : q.y ≤ s.maxLat) :
    (encodeStep q bt s).2.minLon ≤ q.x ∧ q.x ≤ (encodeStep q bt s).2.maxLon ∧
      (encodeStep q bt s).2.minLat ≤ q.y ∧ q.y ≤ (encodeStep q bt s).2.maxLat := by
  cases hbt : (bt % 2 == 0 : Bool)
  · by_cases hc : (s.maxLat + s.minLat) / 2 < q.y <;>
      simp [encodeStep, hbt, hc] <;>
      refine ⟨by linarith, by linarith, by linarith, by linarith⟩
  · by_cases hc : (s.maxLon + s.minLon) / 2 < q.x <;>
      simp [encodeStep, hbt, hc] <;>
      refine ⟨by linarith, by linarith, by linarith, by linarith⟩

theorem encode_inrange (q : Coordinate) :
    ∀ (n bt : Nat) (s : BBoxState),
      s.minLon ≤ q.x → q.x ≤ s.maxLon → s.minLat ≤ q.y → q.y ≤ s.maxLat →
      (encodeSteps q n bt s).2.minLon ≤ q.x ∧ q.x ≤ (encodeSteps q n bt s).2.maxLon ∧
        (encodeSteps q n bt s).2.minLat ≤ q.y ∧ q.y ≤ (encodeSteps q n bt s).2.maxLat := by
  intro n
  induction n with
  | zero => intro bt s hx1 hx2 hy1 hy2; exact ⟨hx1, hx2, hy1, hy2⟩
  | succ m ih =>
    intro bt s hx1 hx2 hy1 hy2
    have hstep := encodeStep_inrange q bt s hx1 hx2 hy1 hy2
    simp only [encodeSteps]
    exact ih (bt + 1) (encodeStep q bt s).2 hstep.1 hstep.2.1 hstep.2.2.1 hstep.2.2.2

/-! ## Spec-side bridge -/

theorem specStep_eq_encodeStep : specStep = encodeStep := rfl

theorem specBitsGo_eq (c : Coordinate) :
    ∀ n i s, specBitsGo c i s n = (encodeSteps c n i s).1 := by
  intro n
  induction n with
  | zero => intro i s; rfl
  | succ m ih => intro i s; simp only [specBitsGo, encodeSteps, specStep_eq_encodeStep, ih]

theorem pack_chunk : ∀ (n : Nat) (bs : List Bool), bs.length = 5 * n →
    packChars 0 0 bs =
      (chunk5 bs).map (fun g => BASE32_CODES.getD (bitsVal g) default) := by
  intro n
  induction n with
  | zero =>
    intro bs hlen
    have : bs = [] := List.eq_nil_of_length_eq_zero (by omega)
    subst this
    rfl
  | succ m ih =>
    intro bs hlen
    match bs with
    | [] => simp at hlen
    | [_] => simp at hlen; omega
    | [_, _] => simp at hlen; omega
    | [_, _, _] => simp at hlen; omega
    | [_, _, _, _] => simp at hlen; omega
    | b0 :: b1 :: b2 :: b3 :: b4 :: t =>
      rw [packChars_quintuple, ih t (by simp at hlen; omega)]
      rfl

/-! ## Assembled facts about `decode_bbox` on valid hashes -/

theorem decode_bbox_of_valid (h : List Char) (hv : ValidHash h) :
    decode_bbox h = .ok
      (⟨(decodeGo (hashBits h) true initState).minLon,
        (decodeGo (hashBits h) true initState).minLat⟩,
       ⟨(decodeGo (hashBits h) true initState).maxLon,
        (decodeGo (hashBits h) true initState).maxLat⟩) := by
  rw [decode_bbox, hashValues_of_valid h hv]
  simp only [hashBits, List.map_map, Function.comp_def]

theorem initState_lon : initState.minLon < initState.maxLon := by norm_num [initState]

theorem initState_lat : initState.minLat < initState.maxLat := by norm_num [initState]

theorem hashBits_append (a b : List Char) : hashBits (a ++ b) = hashBits a ++ hashBits b := by
  simp [hashBits]

theorem encode_length (c : Coordinate) (L : Nat) (out : List Char)
    (he : encode c L = .ok out) : out.length = L := by
  obtain ⟨o, ho, hlen, _⟩ := encode_ok c L
  rw [he] at ho
  cases ho
  exact hlen

theorem decode_eq_of_valid (h : List Char) (hv : ValidHash h) :
    decode h = .ok
      (⟨((decodeGo (hashBits h) true initState).minLon +
          (decodeGo (hashBits h) true initState).maxLon) / 2,
        ((decodeGo (hashBits h) true initState).minLat +
          (decodeGo (hashBits h) true initState).maxLat) / 2⟩,
       ((decodeGo (hashBits h) true initState).maxLon -
         (decodeGo (hashBits h) true initState).minLon) / 2,
       ((decodeGo (hashBits h) true initState).maxLat -
         (decodeGo (hashBits h) true initState).minLat) / 2) := by
  simp only [decode, decode_bbox_of_valid h hv]

theorem decode_bbox_invalid (h : List Char) (hv : ¬ ValidHash h) :
    decode_bbox h = .panicked := by
  rw [decode_bbox, hashValues_of_invalid h hv]

theorem decode_invalid (h : List Char) (hv : ¬ ValidHash h) : decode h = .panicked := by
  simp only [decode, decode_bbox_invalid h hv]

theorem neighbor_invalid (h : List Char) (d : Direction) (hv : ¬ ValidHash h) :
    neighbor h d = .panicked := by
  simp only [neighbor, decode_invalid h hv]

theorem neighbors_invalid (h : List Char) (hv : ¬ ValidHash h) :
    neighbors h = .panicked := by
  simp only [neighbors, neighbor_invalid h _ hv]

theorem neighbor_eq_encode (h : List Char) (d : Direction)
    (center : Coordinate) (lonErr latErr : ℚ)
    (hdec : decode h = .ok (center, lonErr, latErr)) :
    neighbor h d = encode ⟨center.x + 2 * |lonErr| * ((d.to_tuple).2 : ℚ),
      center.y + 2 * |latErr| * ((d.to_tuple).1 : ℚ)⟩ h.length := by
  simp only [neighbor, hdec]

theorem neighbor_ok (h : List Char) (d : Direction) (hv : ValidHash h) :
    ∃ out, neighbor h d = .ok out ∧ out.length = h.length := by
  rw [neighbor_eq_encode h d _ _ _ (decode_eq_of_valid h hv)]
  obtain ⟨o, ho, hlen, _⟩ := encode_ok _ h.length
  exact ⟨o, ho, hlen⟩

theorem neighbors_eq (h : List Char) (o1 o2 o3 o4 o5 o6 o7 o8 : List Char)
    (h1 : neighbor h .Sw = .ok o1) (h2 : neighbor h .S = .ok o2)
    (h3 : neighbor h .Se = .ok o3) (h4 : neighbor h .W = .ok o4)
    (h5 : neighbor h .E = .ok o5) (h6 : neighbor h .Nw = .ok o6)
    (h7 : neighbor h .N = .ok o7) (h8 : neighbor h .Ne = .ok o8) :
    neighbors h = .ok ⟨o1, o2, o3, o4, o5, o6, o7, o8⟩ := by
  simp only [neighbors, h1, h2, h3, h4, h5, h6, h7, h8]

theorem decode_bbox_ne_err (h : List Char) (e : GHError) : decode_bbox h ≠ .err e := by
  rw [decode_bbox]
  cases hashValues h <;> simp

theorem decode_ne_err (h : List Char) (e : GHError) : decode h ≠ .err e := by
  rw [decode]
  cases hb : decode_bbox h with
  | ok v => cases v; simp
  | err e2 => exact absurd hb (decode_bbox_ne_err h e2)
  | panicked => simp

theorem neighbor_ne_err (h : List Char) (d : Direction) (e : GHError) :
    neighbor h d ≠ .err e := by
  rw [neighbor]
  cases hd : decode h with
  | ok v =>
    obtain ⟨c2, le2, la2⟩ := v
    obtain ⟨o, ho, _, _⟩ := encode_ok
      ⟨c2.x + 2 * |le2| * ((d.to_tuple).2 : ℚ), c2.y + 2 * |la2| * ((d.to_tuple).1 : ℚ)⟩ h.length
    simp [ho]
  | err e2 => exact absurd hd (decode_ne_err h e2)
  | panicked => simp

theorem neighbors_ne_err (h : List Char) (e : GHError) : neighbors h ≠ .err e := by
  rw [neighbors]
  cases neighbor h .Sw <;> cases neighbor h .S <;> cases neighbor h .Se <;>
    cases neighbor h .W <;> cases neighbor h .E <;> cases neighbor h .Nw <;>
    cases neighbor h .N <;> cases neighbor h .Ne <;> simp


attribute [local semireducible] Rat.mul Rat.inv Rat.add Rat.sub

/-- Claim C10: for every finite coordinate, including coordinates outside the
nominal longitude/latitude ranges, and every length `L`, `encode` never fails:
it returns a string of exactly `L` characters, each drawn from the 32-symbol
alphabet (the index into the symbol table never exceeds 31, so the character
lookup always succeeds). -/
theorem C10_encode_total (c : Coordinate) (L : Nat) :
    ∃ out, encode c L = .ok out ∧ out.length = L ∧ ∀ ch ∈ out, ch ∈ BASE32_CODES :=
  encode_ok c L

set_option maxHeartbeats 2000000 in
set_option maxRecDepth 4000 in
/-- Claim C9: `encode` returns exactly the concrete vectors from the spec:
9q60y and 9q60y60rhs for (-120.6623, 35.3003) at lengths 5 and 10,
ww8p1r4t8 for (112.5584, 37.8324) at length 9, and wte for (117, 32) at
length 3. -/
theorem C9_encode_vectors :
    encode ⟨-1206623/10000, 353003/10000⟩ 5 = .ok ("9q60y".toList) ∧
    encode ⟨-1206623/10000, 353003/10000⟩ 10 = .ok ("9q60y60rhs".toList) ∧
    encode ⟨1125584/10000, 378324/10000⟩ 9 = .ok ("ww8p1r4t8".toList) ∧
    encode ⟨117, 32⟩ 3 = .ok ("wte".toList) := by
  refine ⟨?_, ?_, ?_, ?_⟩ <;> decide

/-- Claim C3: `encode` produces bits by repeated bisection where a bit is 1
exactly when the coordinate's value on the active axis is strictly greater
than the midpoint of that axis's current bounds (the lower bound then becomes
the midpoint, otherwise the upper bound does), the active axis is longitude
on even 0-based bit indices and latitude on odd, and each group of 5
accumulated bits is mapped through the alphabet table
0123456789bcdefghjkmnpqrstuvwxyz to one output character.  `specEncode`
transcribes that description from the spec; `encode` agrees with it. -/
theorem C3_encode_structure (c : Coordinate) (L : Nat) :
    encode c L = .ok (specEncode c L) ∧
      BASE32_CODES = "0123456789bcdefghjkmnpqrstuvwxyz".toList := by
  constructor
  · rw [encode_eq_pack, specEncode, specBits, specBitsGo_eq,
      pack_chunk L _ (by rw [encodeSteps_length])]
  · decide

set_option maxHeartbeats 2000000 in
set_option maxRecDepth 4000 in
/-- Claim C4, counterexample: at coordinate (117, 32) and length L = 13 the
claim fails: `encode_long` accumulates into a `u64`, so at `5 * 13 = 65` bits
the leading bit (1, since 117 > 0) is shifted out, and the returned integer
no longer equals the value of the bit sequence recovered from
`encode (117, 32) 13` via the alphabet's inverse. -/
theorem C4_encode_long_wraps :
    encode ⟨117, 32⟩ 13 = .ok ("wtenn3kv9875q".toList) ∧
      encode_long ⟨117, 32⟩ (5 * 13) ≠ bitsVal (hashBits ("wtenn3kv9875q".toList)) := by
  constructor
  · decide
  · decide

/-- Claim C4, amended: for every coordinate `C` and every length `L` with
`5 * L ≤ 64` (so that the `u64` accumulator does not overflow), the integer
returned by `encode_long(C, 5 * L)` equals the value of the bit sequence
obtained by mapping each character of `encode(C, L)` through the alphabet's
inverse to a 5-bit value and concatenating, most significant bit first. -/
theorem C4_encode_long_refines_encode (c : Coordinate) (L : Nat) (hL : 5 * L ≤ 64) :
    ∃ out, encode c L = .ok out ∧ encode_long c (5 * L) = bitsVal (hashBits out) := by
  refine ⟨_, encode_eq_pack c L, ?_⟩
  rw [hashBits_pack L _ (by rw [encodeSteps_length]), encode_long_eq]
  refine Nat.mod_eq_of_lt (lt_of_lt_of_le ?_ (Nat.pow_le_pow_right (by omega) hL))
  have := bitsVal_lt (encodeSteps c (5 * L) 0 initState).1
  rwa [encodeSteps_length] at this

/-- Witness for C4 at `C = (0, 0)`, `L = 1`. -/
theorem C4_witness : 5 * 1 ≤ 64 ∧
    ∃ out, encode ⟨0, 0⟩ 1 = .ok out ∧ encode_long ⟨0, 0⟩ (5 * 1) = bitsVal (hashBits out) :=
  ⟨by omega, C4_encode_long_refines_encode ⟨0, 0⟩ 1 (by omega)⟩

/-- Claim C2, counterexample: on the input string a (whose character is not
in the 32-symbol alphabet) `decode_bbox` does not return a recoverable
InvalidSymbol error value: the code unwraps the failed alphabet lookup, i.e.
panics, modelled by `GHResult.panicked`; its Rust return type
`(Coordinate, Coordinate)` carries no error variant at all. -/
theorem C2_panic_not_recoverable :
    decode_bbox ['a'] = GHResult.panicked ∧
      decode_bbox ['a'] ≠ GHResult.err GHError.invalidSymbol := by
  constructor <;> decide

/-- Claim C2, amended: for every input string containing a character not in
the 32-symbol alphabet, `decode_bbox` fails with a panic (an `unwrap` on the
failed lookup, not a recoverable error), and `decode`, `neighbor` and
`neighbors` propagate that same panic unchanged with no partial results; on
fully valid input `decode_bbox` succeeds, and no recoverable error value is
ever produced by any of the four functions. -/
theorem C2_invalid_symbol_panics (h : List Char) (d : Direction) :
    (¬ ValidHash h →
      decode_bbox h = .panicked ∧ decode h = .panicked ∧
        neighbor h d = .panicked ∧ neighbors h = .panicked) ∧
    (ValidHash h → ∃ lo hi, decode_bbox h = .ok (lo, hi)) ∧
    (∀ e, decode_bbox h ≠ .err e ∧ decode h ≠ .err e ∧
      neighbor h d ≠ .err e ∧ neighbors h ≠ .err e) := by
  refine ⟨?_, ?_, ?_⟩
  · intro hv
    exact ⟨decode_bbox_invalid h hv, decode_invalid h hv,
      neighbor_invalid h d hv, neighbors_invalid h hv⟩
  · intro hv
    exact ⟨_, _, decode_bbox_of_valid h hv⟩
  · intro e
    exact ⟨decode_bbox_ne_err h e, decode_ne_err h e,
      neighbor_ne_err h d e, neighbors_ne_err h e⟩

/-- Witness for C2 at the invalid input a and direction N. -/
theorem C2_witness :
    ¬ ValidHash ['a'] ∧
      (decode_bbox ['a'] = .panicked ∧ decode ['a'] = .panicked ∧
        neighbor ['a'] Direction.N = .panicked ∧ neighbors ['a'] = .panicked) :=
  ⟨by decide, (C2_invalid_symbol_panics ['a'] Direction.N).1 (by decide)⟩

theorem encode_follows0 (q : Coordinate) (bs : List Bool)
    (hx1 : (decodeGo bs true initState).minLon < q.x)
    (hx2 : q.x ≤ (decodeGo bs true initState).maxLon)
    (hy1 : (decodeGo bs true initState).minLat < q.y)
    (hy2 : q.y ≤ (decodeGo bs true initState).maxLat) :
    encodeSteps q bs.length 0 initState = (bs, decodeGo bs true initState) :=
  encode_follows q bs 0 initState initState_lon initState_lat hx1 hx2 hy1 hy2

/-- Claim C8: for every valid hash string `h`, `decode h` returns the
midpoint of the bounding box computed by `decode_bbox h` as the center, a
longitude error equal to half the box's width and a latitude error equal to
half its height, in that order (longitude error before latitude error). -/
theorem C8_decode_center (h : List Char) (hv : ValidHash h) :
    ∃ lo hi, decode_bbox h = .ok (lo, hi) ∧
      decode h = .ok (⟨(lo.x + hi.x) / 2, (lo.y + hi.y) / 2⟩,
        (hi.x - lo.x) / 2, (hi.y - lo.y) / 2) :=
  ⟨_, _, decode_bbox_of_valid h hv, decode_eq_of_valid h hv⟩

/-- Witness for C8 at the hash 0. -/
theorem C8_witness :
    ∃ lo hi, decode_bbox ['0'] = .ok (lo, hi) ∧
      decode ['0'] = .ok (⟨(lo.x + hi.x) / 2, (lo.y + hi.y) / 2⟩,
        (hi.x - lo.x) / 2, (hi.y - lo.y) / 2) :=
  C8_decode_center ['0'] (by decide)

/-- Claim C1: for every valid hash string `h` of length `L`, encoding the
center coordinate of `decode h` with `encode` at the same length `L` returns
exactly `h`. -/
theorem C1_roundtrip (h : List Char) (hv : ValidHash h) :
    ∃ center lonErr latErr, decode h = .ok (center, lonErr, latErr) ∧
      encode center h.length = .ok h := by
  have hinv := decodeGo_nested (hashBits h) true initState initState_lon initState_lat
  refine ⟨_, _, _, decode_eq_of_valid h hv, ?_⟩
  have hfollows := encode_follows0
    ⟨((decodeGo (hashBits h) true initState).minLon +
        (decodeGo (hashBits h) true initState).maxLon) / 2,
     ((decodeGo (hashBits h) true initState).minLat +
        (decodeGo (hashBits h) true initState).maxLat) / 2⟩
    (hashBits h)
    (by dsimp only; linarith [hinv.2.2.1])
    (by dsimp only; linarith [hinv.2.2.1])
    (by dsimp only; linarith [hinv.2.2.2.2.2])
    (by dsimp only; linarith [hinv.2.2.2.2.2])
  rw [encode_eq_pack, ← hashBits_length h]
  simp only [hfollows, pack_hashBits h hv]

/-- Witness for C1 at the hash 9q60y. -/
theorem C1_witness :
    ValidHash ("9q60y".toList) ∧
      ∃ center lonErr latErr, decode ("9q60y".toList) = .ok (center, lonErr, latErr) ∧
        encode center ("9q60y".toList).length = .ok ("9q60y".toList) :=
  ⟨by decide, C1_roundtrip _ (by decide)⟩

/-- Claim C5: for every coordinate `C` within the valid longitude/latitude
ranges and every length `L`, the bounding box returned by
`decode_bbox (encode C L)` contains `C`, within tolerance `1e-9` on each axis
(the containment in fact holds exactly). -/
theorem C5_contains (c : Coordinate) (L : Nat)
    (hx1 : -180 ≤ c.x) (hx2 : c.x ≤ 180) (hy1 : -90 ≤ c.y) (hy2 : c.y ≤ 90) :
    ∃ out lo hi, encode c L = .ok out ∧ decode_bbox out = .ok (lo, hi) ∧
      lo.x - 1 / 1000000000 ≤ c.x ∧ c.x ≤ hi.x + 1 / 1000000000 ∧
      lo.y - 1 / 1000000000 ≤ c.y ∧ c.y ≤ hi.y + 1 / 1000000000 := by
  have hvalid : ValidHash (packChars 0 0 (encodeSteps c (5 * L) 0 initState).1) :=
    packChars_mem _ 0 0 (by omega) (by omega)
  have hhb : hashBits (packChars 0 0 (encodeSteps c (5 * L) 0 initState).1) =
      (encodeSteps c (5 * L) 0 initState).1 :=
    hashBits_pack L _ (by rw [encodeSteps_length])
  have hagree : decodeGo (encodeSteps c (5 * L) 0 initState).1 true initState =
      (encodeSteps c (5 * L) 0 initState).2 := encode_decode_agree c (5 * L) 0 initState
  have hin := encode_inrange c (5 * L) 0 initState hx1 hx2 hy1 hy2
  refine ⟨packChars 0 0 (encodeSteps c (5 * L) 0 initState).1,
    ⟨(encodeSteps c (5 * L) 0 initState).2.minLon,
     (encodeSteps c (5 * L) 0 initState).2.minLat⟩,
    ⟨(encodeSteps c (5 * L) 0 initState).2.maxLon,
     (encodeSteps c (5 * L) 0 initState).2.maxLat⟩,
    encode_eq_pack c L, ?_, ?_, ?_, ?_, ?_⟩
  · rw [decode_bbox_of_valid _ hvalid, hhb, hagree]
  · dsimp only; linarith [hin.1]
  · dsimp only; linarith [hin.2.1]
  · dsimp only; linarith [hin.2.2.1]
  · dsimp only; linarith [hin.2.2.2]

/-- Witness for C5 at `C = (0, 0)`, `L = 1`. -/
theorem C5_witness :
    ∃ out lo hi, encode ⟨0, 0⟩ 1 = .ok out ∧ decode_bbox out = .ok (lo, hi) ∧
      lo.x - 1 / 1000000000 ≤ (0 : ℚ) ∧ (0 : ℚ) ≤ hi.x + 1 / 1000000000 ∧
      lo.y - 1 / 1000000000 ≤ (0 : ℚ) ∧ (0 : ℚ) ≤ hi.y + 1 / 1000000000 :=
  C5_contains ⟨0, 0⟩ 1 (by decide) (by decide) (by decide) (by decide)

/-- Claim C6: for every valid hash string `h`, `decode_bbox h` returns
min ≤ max on both axes, and appending one more valid character yields a
bounding box contained within (or equal to) the bounding box of `h`, so the
width and height are non-increasing in the hash length. -/
theorem C6_bbox_nesting (h : List Char) (c : Char) (hv : ValidHash h)
    (hc : c ∈ BASE32_CODES) :
    ∃ lo hi lo2 hi2, decode_bbox h = .ok (lo, hi) ∧
      decode_bbox (h ++ [c]) = .ok (lo2, hi2) ∧
      lo.x ≤ hi.x ∧ lo.y ≤ hi.y ∧ lo2.x ≤ hi2.x ∧ lo2.y ≤ hi2.y ∧
      lo.x ≤ lo2.x ∧ hi2.x ≤ hi.x ∧ lo.y ≤ lo2.y ∧ hi2.y ≤ hi.y := by
  have hv2 : ValidHash (h ++ [c]) := by
    intro x hx
    rcases List.mem_append.mp hx with hx1 | hx2
    · exact hv x hx1
    · have hxc : x = c := List.mem_singleton.mp hx2
      exact hxc ▸ hc
  have h1 := decodeGo_nested (hashBits h) true initState initState_lon initState_lat
  have h2 := decodeGo_nested (hashBits [c]) (afterParity (hashBits h) true)
    (decodeGo (hashBits h) true initState) h1.2.2.1 h1.2.2.2.2.2
  refine ⟨⟨(decodeGo (hashBits h) true initState).minLon,
           (decodeGo (hashBits h) true initState).minLat⟩,
          ⟨(decodeGo (hashBits h) true initState).maxLon,
           (decodeGo (hashBits h) true initState).maxLat⟩,
          ⟨(decodeGo (hashBits [c]) (afterParity (hashBits h) true)
              (decodeGo (hashBits h) true initState)).minLon,
           (decodeGo (hashBits [c]) (afterParity (hashBits h) true)
              (decodeGo (hashBits h) true initState)).minLat⟩,
          ⟨(decodeGo (hashBits [c]) (afterParity (hashBits h) true)
              (decodeGo (hashBits h) true initState)).maxLon,
           (decodeGo (hashBits [c]) (afterParity (hashBits h) true)
              (decodeGo (hashBits h) true initState)).maxLat⟩,
          decode_bbox_of_valid h hv, ?_, ?_, ?_, ?_, ?_, ?_, ?_, ?_, ?_⟩
  · rw [decode_bbox_of_valid _ hv2, hashBits_append, decodeGo_append]
  · dsimp only; linarith [h1.2.2.1]
  · dsimp only; linarith [h1.2.2.2.2.2]
  · dsimp only; linarith [h2.2.2.1]
  · dsimp only; linarith [h2.2.2.2.2.2]
  · dsimp only; linarith [h2.1]
  · dsimp only; linarith [h2.2.1]
  · dsimp only; linarith [h2.2.2.2.1]
  · dsimp only; linarith [h2.2.2.2.2.1]

/-- Witness for C6 at the hash 0 extended by the character 1. -/
theorem C6_witness :
    ∃ lo hi lo2 hi2, decode_bbox ['0'] = .ok (lo, hi) ∧
      decode_bbox (['0'] ++ ['1']) = .ok (lo2, hi2) ∧
      lo.x ≤ hi.x ∧ lo.y ≤ hi.y ∧ lo2.x ≤ hi2.x ∧ lo2.y ≤ hi2.y ∧
      lo.x ≤ lo2.x ∧ hi2.x ≤ hi.x ∧ lo.y ≤ lo2.y ∧ hi2.y ≤ hi.y :=
  C6_bbox_nesting ['0'] '1' (by decide) (by decide)

/-- Claim C7: for every valid hash string `h` and direction `d` with table
entry `(lat_step, lon_step)`, `neighbor h d` equals `encode` applied to the
coordinate nudged by twice the absolute decode errors in direction
`(lon_step, lat_step)`, at the same character length as `h`; consequently
every neighbor string has the same length as `h`, and `neighbors h` is the
aggregate of the eight single-direction `neighbor` results. -/
theorem C7_neighbor_contract (h : List Char) (d : Direction) (hv : ValidHash h) :
    ∃ center lonErr latErr nSw nS nSe nW nE nNw nN nNe,
      decode h = .ok (center, lonErr, latErr) ∧
      neighbor h d = encode ⟨center.x + 2 * |lonErr| * ((d.to_tuple).2 : ℚ),
        center.y + 2 * |latErr| * ((d.to_tuple).1 : ℚ)⟩ h.length ∧
      (∀ out, neighbor h d = .ok out → out.length = h.length) ∧
      neighbor h .Sw = .ok nSw ∧ neighbor h .S = .ok nS ∧ neighbor h .Se = .ok nSe ∧
      neighbor h .W = .ok nW ∧ neighbor h .E = .ok nE ∧ neighbor h .Nw = .ok nNw ∧
      neighbor h .N = .ok nN ∧ neighbor h .Ne = .ok nNe ∧
      neighbors h = .ok ⟨nSw, nS, nSe, nW, nE, nNw, nN, nNe⟩ := by
  obtain ⟨oSw, hSw, _⟩ := neighbor_ok h .Sw hv
  obtain ⟨oS, hS, _⟩ := neighbor_ok h .S hv
  obtain ⟨oSe, hSe, _⟩ := neighbor_ok h .Se hv
  obtain ⟨oW, hW, _⟩ := neighbor_ok h .W hv
  obtain ⟨oE, hE, _⟩ := neighbor_ok h .E hv
  obtain ⟨oNw, hNw, _⟩ := neighbor_ok h .Nw hv
  obtain ⟨oN, hN, _⟩ := neighbor_ok h .N hv
  obtain ⟨oNe, hNe, _⟩ := neighbor_ok h .Ne hv
  refine ⟨_, _, _, oSw, oS, oSe, oW, oE, oNw, oN, oNe,
    decode_eq_of_valid h hv,
    neighbor_eq_encode h d _ _ _ (decode_eq_of_valid h hv), ?_,
    hSw, hS, hSe, hW, hE, hNw, hN, hNe,
    neighbors_eq h _ _ _ _ _ _ _ _ hSw hS hSe hW hE hNw hN hNe⟩
  intro out hout
  rw [neighbor_eq_encode h d _ _ _ (decode_eq_of_valid h hv)] at hout
  exact encode_length _ _ _ hout

/-- Witness for C7 at the hash 0 and direction N. -/
theorem C7_witness :
    ValidHash ['0'] ∧
      ∃ center lonErr latErr nSw nS nSe nW nE nNw nN nNe,
        decode ['0'] = .ok (center, lonErr, latErr) ∧
        neighbor ['0'] Direction.N = encode
          ⟨center.x + 2 * |lonErr| * (((Direction.N).to_tuple).2 : ℚ),
           center.y + 2 * |latErr| * (((Direction.N).to_tuple).1 : ℚ)⟩ (['0'].length) ∧
        (∀ out, neighbor ['0'] Direction.N = .ok out → out.length = ['0'].length) ∧
        neighbor ['0'] .Sw = .ok nSw ∧ neighbor ['0'] .S = .ok nS ∧
        neighbor ['0'] .Se = .ok nSe ∧ neighbor ['0'] .W = .ok nW ∧
        neighbor ['0'] .E = .ok nE ∧ neighbor ['0'] .Nw = .ok nNw ∧
        neighbor ['0'] .N = .ok nN ∧ neighbor ['0'] .Ne = .ok nNe ∧
        neighbors ['0'] = .ok ⟨nSw, nS, nSe, nW, nE, nNw, nN, nNe⟩ :=
  ⟨by decide, C7_neighbor_contract ['0'] Direction.N (by decide)⟩
